import Mathlib

/-
Verification of the EdgeCheck latency-histogram core (`src/index.ts` of the
CloudflareWorkers-edgecheck worker).  The definitions below are a shallow
embedding of the source: JavaScript numbers on the record/rank paths are
modelled by the finite-or-NaN fragment (`JsNum`), the per-day KV slot by
`KVVal`, and a thrown exception by `Except.error`.
-/

namespace EdgeCheck

/-- Per-location aggregation entry: the values of the `colo` record in the
source `type Stored` (`{ count: number; sumRtt: number; country?: string }`). -/
structure ColoStat where
  count : Nat
  sumRtt : Int
  country : Option String
  deriving DecidableEq

/-- The persisted per-day aggregate, source `type Stored`.  The `colo` object
is modelled as an insertion-ordered association list, matching JS object
property order. -/
structure Stored where
  samples : Nat
  buckets : List Nat
  bucketEdges : List Int
  colo : List (String × ColoStat)
  deriving DecidableEq

/-- Source `DEFAULT_EDGES` (`[5, 10, 15, ..., 1000]`; the last bucket is the
overflow bucket for values above 1000). -/
def DEFAULT_EDGES : List Int := [5, 10, 15, 20, 30, 40, 60, 80, 100, 120, 150, 200, 300, 500, 1000]

/-- The freshly initialized aggregate built inline in `recordRun`,
`getPercentile` and the leaderboard handler when the KV slot is empty:
`{ samples: 0, buckets: new Array(DEFAULT_EDGES.length + 1).fill(0),
bucketEdges: DEFAULT_EDGES, colo: {} }`. -/
def defaultStored : Stored :=
  { samples := 0
    buckets := List.replicate (DEFAULT_EDGES.length + 1) 0
    bucketEdges := DEFAULT_EDGES
    colo := [] }

/-- A JavaScript number argument on the RTT paths, restricted to the
finite-or-NaN fragment: `fin x` is a finite value (modelled exactly as a
rational), `nan` is `NaN`.  The `rtt` parameters below are `Option JsNum`,
`none` standing for `null`/`undefined` (the source tests `edgeRtt == null`,
which catches both). -/
inductive JsNum where
  | nan : JsNum
  | fin : ℚ → JsNum
  deriving DecidableEq

/-- JS `Math.round`: round to the nearest integer, halves toward positive
infinity, i.e. `Math.round(x) = floor(x + 0.5)` (exact on our fragment). -/
def roundJs (x : ℚ) : ℤ := Int.floor (x + 1 / 2)

/-- Source `bucketIndex(rtt, edges)`: the loop `for i: if (rtt <= edges[i])
return i;` falling through to `return edges.length` (the overflow bucket). -/
def bucketIndex (rtt : ℤ) : List ℤ → ℕ
  | [] => 0
  | e :: es => if rtt ≤ e then 0 else bucketIndex rtt es + 1

/-- The accumulation loop of `percentileFromHist`: walking the remaining
buckets `bs` with current index `i` and accumulator `acc`, it returns
`edges[i]` at the first bucket where `acc` reaches `targetRank`, the sentinel
`edges[edges.length - 1] + 1` if that bucket is past the edge list, and `none`
(the trailing `return null`) if the walk ends. -/
def histWalk (edges : List ℤ) (targetRank : ℤ) : List ℕ → ℕ → ℤ → Option ℤ
  | [], _, _ => none
  | b :: bs, i, acc =>
    if targetRank ≤ acc + (b : ℤ) then
      some (if i < edges.length then edges.getD i 0 else edges.getD (edges.length - 1) 0 + 1)
    else
      histWalk edges targetRank bs (i + 1) (acc + (b : ℤ))

/-- Source `percentileFromHist(samples, buckets, edges, targetPct)`:
`null` when `samples <= 0`, otherwise the bucket walk against
`targetRank = Math.ceil((targetPct / 100) * samples)`. -/
def percentileFromHist (samples : ℤ) (buckets : List ℕ) (edges : List ℤ) (targetPct : ℚ) : Option ℤ :=
  if samples ≤ 0 then none
  else histWalk edges (Int.ceil (targetPct / 100 * (samples : ℚ))) buckets 0 0

/-- The state of the KV slot `stats:<day>`: absent, present but not
deserializable into the `Stored` shape (`JSON.parse` throws on it), or a
well-formed stored aggregate. -/
inductive KVVal where
  | absent : KVVal
  | corrupt : KVVal
  | valid : Stored → KVVal
  deriving DecidableEq

deriving instance DecidableEq for Except

/-- The load step `storedStr ? JSON.parse(storedStr) : { samples: 0, ... }`
shared by `recordRun` and `getPercentile`: the ternary only handles absence;
a present value that fails to parse makes `JSON.parse` throw, modelled as
`Except.error`. -/
def loadStored : KVVal → Except Unit Stored
  | .absent => .ok defaultStored
  | .corrupt => .error ()
  | .valid s => .ok s

/-- The bucket increment `stored.buckets[idx] = (stored.buckets[idx] ?? 0) + 1`:
in range it bumps the entry; past the end it extends the array (JS holes read
back through `?? 0` as zero, modelled as explicit zero padding). -/
def incAt : List ℕ → ℕ → List ℕ
  | [], 0 => [1]
  | [], n + 1 => 0 :: incAt [] n
  | b :: bs, 0 => (b + 1) :: bs
  | b :: bs, n + 1 => b :: incAt bs n

/-- JS object property read `stored.colo[key]` on the association-list model. -/
def lookupColo : List (String × ColoStat) → String → Option ColoStat
  | [], _ => none
  | (k, v) :: rest, key => if k = key then some v else lookupColo rest key

/-- JS object property write `stored.colo[key] = c` on the association-list
model: replace in place when the key exists (property order is preserved),
append otherwise. -/
def setColo : List (String × ColoStat) → String → ColoStat → List (String × ColoStat)
  | [], key, v => [(key, v)]
  | (k, v0) :: rest, key, v =>
    if k = key then (key, v) :: rest else (k, v0) :: setColo rest key v

/-- The mutation body of `recordRun` (source lines 79-88): bump `samples`,
bump the bucket chosen by `bucketIndex(Math.round(edgeRtt), bucketEdges)`, and
update the `colo` entry under `cf.colo ?? "—"` (count + 1, sumRtt +
`Math.round(edgeRtt)`, country overwritten with `cf.country`). -/
def recordSample (stored : Stored) (rtt : ℚ) (colo country : Option String) : Stored :=
  let idx := bucketIndex (roundJs rtt) stored.bucketEdges
  let key := colo.getD ("—")
  let c := (lookupColo stored.colo key).getD { count := 0, sumRtt := 0, country := country }
  { samples := stored.samples + 1
    buckets := incAt stored.buckets idx
    bucketEdges := stored.bucketEdges
    colo := setColo stored.colo key
      { count := c.count + 1, sumRtt := c.sumRtt + roundJs rtt, country := country } }

/-- Source `recordRun(env, cf, edgeRtt)` for the day's KV slot: the guard
`if (edgeRtt == null || Number.isNaN(edgeRtt)) return;` comes first (before
any KV access), then load, mutate, save. -/
def recordRun (kv : KVVal) (colo country : Option String) (edgeRtt : Option JsNum) :
    Except Unit KVVal :=
  match edgeRtt with
  | none => .ok kv
  | some .nan => .ok kv
  | some (.fin x) =>
    match loadStored kv with
    | .error e => .error e
    | .ok stored => .ok (.valid (recordSample stored x colo country))

/-- The `countLe` loop of `getPercentile`: `for i: if (i < idx) countLe +=
buckets[i]; else if (i === idx) countLe += buckets[i];`, with `i` threaded as
the second argument. -/
def countLeAux (idx : ℕ) : List ℕ → ℕ → ℕ
  | [], _ => 0
  | b :: bs, i => (if i < idx then b else if i = idx then b else 0) + countLeAux idx bs (i + 1)

/-- The value returned by `getPercentile`:
`{ fasterThanPct, samples, day }`. -/
structure PeekResult where
  fasterThanPct : ℤ
  samples : ℕ
  day : String
  deriving DecidableEq

/-- Source `getPercentile(env, edgeRtt)` for the day's KV slot: `null` for a
missing or NaN RTT (checked before any KV access), else load, prefix-count up
to and including the sample's bucket, and
`samples > 0 ? Math.max(0, Math.min(100, Math.round((countLe / samples) * 100))) : 0`. -/
def getPercentile (day : String) (kv : KVVal) (edgeRtt : Option JsNum) :
    Except Unit (Option PeekResult) :=
  match edgeRtt with
  | none => .ok none
  | some .nan => .ok none
  | some (.fin x) =>
    match loadStored kv with
    | .error e => .error e
    | .ok stored =>
      let idx := bucketIndex (roundJs x) stored.bucketEdges
      let countLe := countLeAux idx stored.buckets 0
      let fasterThan : ℤ :=
        if 0 < stored.samples then
          max 0 (min 100 (roundJs ((countLe : ℚ) / (stored.samples : ℚ) * 100)))
        else 0
      .ok (some { fasterThanPct := fasterThan, samples := stored.samples, day := day })

/-- One call to `recordRun`: the per-request data it reads
(`cf.colo`, `cf.country`, `cf.clientTcpRtt`). -/
structure RecCall where
  colo : Option String
  country : Option String
  rtt : Option JsNum
  deriving DecidableEq

/-- A finite single-threaded sequence of `recordRun` calls against the same
day slot, each seeing the state the previous one persisted. -/
def runSeq : KVVal → List RecCall → Except Unit KVVal
  | kv, [] => .ok kv
  | kv, c :: cs =>
    match recordRun kv c.colo c.country c.rtt with
    | .error e => .error e
    | .ok kv2 => runSeq kv2 cs

/-- The conservation invariant of the data model: the histogram total and the
per-location totals both equal `samples`. -/
def Conserved (s : Stored) : Prop :=
  s.buckets.sum = s.samples ∧ (s.colo.map (fun p => p.2.count)).sum = s.samples

/- Helper lemmas. -/

theorem getD_mem_of_lt (l : List ℤ) (n : ℕ) (h : n < l.length) : l.getD n 0 ∈ l := by
  rw [List.getD_eq_getElem l 0 h]
  exact List.getElem_mem h

theorem sorted_getD_lt (l : List ℤ) (hs : List.Pairwise (fun a b : ℤ => a < b) l)
    (i j : ℕ) (hij : i < j) (hj : j < l.length) : l.getD i 0 < l.getD j 0 := by
  have hi : i < l.length := lt_trans hij hj
  rw [List.getD_eq_getElem l 0 hi, List.getD_eq_getElem l 0 hj]
  have := List.pairwise_iff_get.mp hs ⟨i, hi⟩ ⟨j, hj⟩ hij
  simpa using this

theorem sorted_getD_le (l : List ℤ) (hs : List.Pairwise (fun a b : ℤ => a < b) l)
    (i j : ℕ) (hij : i ≤ j) (hj : j < l.length) : l.getD i 0 ≤ l.getD j 0 := by
  rcases Nat.eq_or_lt_of_le hij with he | hlt
  · rw [he]
  · exact le_of_lt (sorted_getD_lt l hs i j hlt hj)

theorem bucketIndex_of_no_edge (rtt : ℤ) (edges : List ℤ)
    (h : ∀ e ∈ edges, ¬ rtt ≤ e) : bucketIndex rtt edges = edges.length := by
  induction edges with
  | nil => rfl
  | cons e es ih =>
    simp only [bucketIndex, List.length_cons]
    rw [if_neg (h e (List.mem_cons_self e es))]
    rw [ih fun x hx => h x (List.mem_cons_of_mem e hx)]

theorem bucketIndex_first (rtt : ℤ) (edges : List ℤ) (i : ℕ) (hi : i < edges.length)
    (hle : rtt ≤ edges.getD i 0) (hlt : ∀ j, j < i → ¬ rtt ≤ edges.getD j 0) :
    bucketIndex rtt edges = i := by
  induction edges generalizing i with
  | nil => simp at hi
  | cons e es ih =>
    cases i with
    | zero =>
      simp only [List.getD_cons_zero] at hle
      simp [bucketIndex, hle]
    | succ n =>
      have h0 : ¬ rtt ≤ e := by
        have := hlt 0 (Nat.succ_pos n)
        simpa using this
      simp only [bucketIndex]
      rw [if_neg h0]
      have hn : n < es.length := by simpa using hi
      have hlen : rtt ≤ es.getD n 0 := by simpa using hle
      have hltn : ∀ j, j < n → ¬ rtt ≤ es.getD j 0 := by
        intro j hj
        have := hlt (j + 1) (Nat.succ_lt_succ hj)
        simpa using this
      rw [ih n hn hlen hltn]

theorem bucketIndex_mono_aux (edges : List ℤ) (r1 r2 : ℤ) (h : r1 ≤ r2) :
    bucketIndex r1 edges ≤ bucketIndex r2 edges := by
  induction edges with
  | nil => exact le_refl 0
  | cons e es ih =>
    by_cases h1 : r1 ≤ e
    · simp [bucketIndex, h1]
    · have h2 : ¬ r2 ≤ e := fun hc => h1 (le_trans h hc)
      simp only [bucketIndex, if_neg h1, if_neg h2]
      exact Nat.succ_le_succ ih

theorem histWalk_first (edges : List ℤ) (t : ℤ) (bs : List ℕ) (k i : ℕ) (acc : ℤ)
    (hk : k < bs.length)
    (hreach : t ≤ acc + ((bs.take (k + 1)).sum : ℤ))
    (hbefore : ∀ j, j < k → acc + ((bs.take (j + 1)).sum : ℤ) < t) :
    histWalk edges t bs i acc =
      some (if i + k < edges.length then edges.getD (i + k) 0
            else edges.getD (edges.length - 1) 0 + 1) := by
  induction bs generalizing k i acc with
  | nil => simp at hk
  | cons b bs ih =>
    cases k with
    | zero =>
      have hr : t ≤ acc + (b : ℤ) := by
        simpa using hreach
      simp [histWalk, hr]
    | succ n =>
      have hnot : ¬ t ≤ acc + (b : ℤ) := by
        have := hbefore 0 (Nat.succ_pos n)
        simp at this
        omega
      simp only [histWalk, if_neg hnot]
      have hn : n < bs.length := by simpa using hk
      have hr : t ≤ acc + (b : ℤ) + ((bs.take (n + 1)).sum : ℤ) := by
        rw [List.take_succ_cons, List.sum_cons] at hreach
        push_cast at hreach ⊢
        omega
      have hb : ∀ j, j < n → acc + (b : ℤ) + ((bs.take (j + 1)).sum : ℤ) < t := by
        intro j hj
        have := hbefore (j + 1) (Nat.succ_lt_succ hj)
        rw [List.take_succ_cons, List.sum_cons] at this
        push_cast at this ⊢
        omega
      rw [ih n (i + 1) (acc + (b : ℤ)) hn hr hb]
      have harith : i + 1 + n = i + (n + 1) := by omega
      rw [harith]

theorem histWalk_shape (edges : List ℤ) (t : ℤ) (bs : List ℕ) (i : ℕ) (acc : ℤ) (v : ℤ)
    (h : histWalk edges t bs i acc = some v) :
    ∃ j, i ≤ j ∧
      v = (if j < edges.length then edges.getD j 0 else edges.getD (edges.length - 1) 0 + 1) := by
  induction bs generalizing i acc with
  | nil => simp [histWalk] at h
  | cons b bs ih =>
    simp only [histWalk] at h
    by_cases hc : t ≤ acc + (b : ℤ)
    · rw [if_pos hc] at h
      refine ⟨i, le_refl i, ?_⟩
      exact (Option.some_inj.mp h).symm
    · rw [if_neg hc] at h
      obtain ⟨j, hj, hv⟩ := ih (i + 1) (acc + (b : ℤ)) h
      exact ⟨j, by omega, hv⟩

theorem bucketVal_mono (edges : List ℤ) (hs : List.Pairwise (fun a b : ℤ => a < b) edges)
    (i j : ℕ) (hij : i ≤ j) :
    (if i < edges.length then edges.getD i 0 else edges.getD (edges.length - 1) 0 + 1) ≤
    (if j < edges.length then edges.getD j 0 else edges.getD (edges.length - 1) 0 + 1) := by
  by_cases hj : j < edges.length
  · have hi : i < edges.length := lt_of_le_of_lt hij hj
    rw [if_pos hi, if_pos hj]
    exact sorted_getD_le edges hs i j hij hj
  · by_cases hi : i < edges.length
    · rw [if_pos hi, if_neg hj]
      have h1 : edges.getD i 0 ≤ edges.getD (edges.length - 1) 0 :=
        sorted_getD_le edges hs i (edges.length - 1) (by omega) (by omega)
      omega
    · rw [if_neg hi, if_neg hj]

theorem histWalk_mono_t (edges : List ℤ) (hs : List.Pairwise (fun a b : ℤ => a < b) edges)
    (t1 t2 : ℤ) (h12 : t1 ≤ t2) (bs : List ℕ) (i : ℕ) (acc : ℤ) (v1 v2 : ℤ)
    (h1 : histWalk edges t1 bs i acc = some v1)
    (h2 : histWalk edges t2 bs i acc = some v2) : v1 ≤ v2 := by
  induction bs generalizing i acc with
  | nil => simp [histWalk] at h1
  | cons b bs ih =>
    simp only [histWalk] at h1 h2
    by_cases hc2 : t2 ≤ acc + (b : ℤ)
    · have hc1 : t1 ≤ acc + (b : ℤ) := le_trans h12 hc2
      rw [if_pos hc1] at h1
      rw [if_pos hc2] at h2
      rw [← Option.some_inj.mp h1, ← Option.some_inj.mp h2]
    · rw [if_neg hc2] at h2
      by_cases hc1 : t1 ≤ acc + (b : ℤ)
      · rw [if_pos hc1] at h1
        obtain ⟨j, hj, hv⟩ := histWalk_shape edges t2 bs (i + 1) (acc + (b : ℤ)) v2 h2
        rw [← Option.some_inj.mp h1, hv]
        exact bucketVal_mono edges hs i j (by omega)
      · rw [if_neg hc1] at h1
        exact ih (i + 1) (acc + (b : ℤ)) h1 h2

theorem histWalk_total (edges : List ℤ) (t : ℤ) (bs : List ℕ) (i : ℕ) (acc : ℤ)
    (hne : bs ≠ []) (htot : t ≤ acc + (bs.sum : ℤ)) :
    histWalk edges t bs i acc ≠ none := by
  induction bs generalizing i acc with
  | nil => exact absurd rfl hne
  | cons b bs ih =>
    simp only [histWalk]
    by_cases hc : t ≤ acc + (b : ℤ)
    · rw [if_pos hc]
      simp
    · rw [if_neg hc]
      cases bs with
      | nil =>
        exfalso
        rw [List.sum_cons] at htot
        push_cast at htot
        simp at htot
        omega
      | cons b2 bs2 =>
        apply ih (i + 1) (acc + (b : ℤ)) (by simp)
        rw [List.sum_cons] at htot
        push_cast at htot ⊢
        omega

theorem incAt_getD (l : List ℕ) (i : ℕ) : (incAt l i).getD i 0 = l.getD i 0 + 1 := by
  induction i generalizing l with
  | zero =>
    cases l with
    | nil => rfl
    | cons b bs => rfl
  | succ n ih =>
    cases l with
    | nil =>
      simp only [incAt, List.getD_cons_succ]
      rw [ih []]
      simp
    | cons b bs =>
      simp only [incAt, List.getD_cons_succ]
      rw [ih bs]

theorem incAt_sum (l : List ℕ) (i : ℕ) : (incAt l i).sum = l.sum + 1 := by
  induction i generalizing l with
  | zero =>
    cases l with
    | nil => rfl
    | cons b bs =>
      simp only [incAt, List.sum_cons]
      omega
  | succ n ih =>
    cases l with
    | nil =>
      simp only [incAt, List.sum_cons]
      rw [ih []]
      omega
    | cons b bs =>
      simp only [incAt, List.sum_cons]
      rw [ih bs]
      omega

theorem lookupColo_setColo_self (l : List (String × ColoStat)) (k : String) (v : ColoStat) :
    lookupColo (setColo l k v) k = some v := by
  induction l with
  | nil => simp [setColo, lookupColo]
  | cons p rest ih =>
    obtain ⟨k0, v0⟩ := p
    by_cases hk : k0 = k
    · simp [setColo, hk, lookupColo]
    · simp [setColo, hk, lookupColo, ih]

theorem coloCountSum_setColo_inc (l : List (String × ColoStat)) (k : String)
    (n : ℤ) (co co2 : Option String) :
    ((setColo l k
        { count := ((lookupColo l k).getD { count := 0, sumRtt := 0, country := co }).count + 1,
          sumRtt := n, country := co2 }).map (fun p => p.2.count)).sum
      = (l.map (fun p => p.2.count)).sum + 1 := by
  induction l with
  | nil => simp [setColo, lookupColo]
  | cons p rest ih =>
    obtain ⟨k0, v0⟩ := p
    by_cases hk : k0 = k
    · simp only [setColo, lookupColo, if_pos hk, List.map_cons, List.sum_cons,
        Option.getD_some]
      omega
    · simp only [setColo, lookupColo, if_neg hk, List.map_cons, List.sum_cons]
      rw [ih]
      omega

theorem conserved_recordSample (s : Stored) (x : ℚ) (colo country : Option String)
    (h : Conserved s) : Conserved (recordSample s x colo country) := by
  obtain ⟨h1, h2⟩ := h
  constructor
  · show (incAt s.buckets (bucketIndex (roundJs x) s.bucketEdges)).sum = s.samples + 1
    rw [incAt_sum, h1]
  · show ((setColo s.colo (colo.getD ("—")) _).map (fun p => p.2.count)).sum = s.samples + 1
    rw [coloCountSum_setColo_inc, h2]

theorem recordRun_valid_step (s : Stored) (colo country : Option String) (rtt : Option JsNum) :
    ∃ s2, recordRun (.valid s) colo country rtt = .ok (.valid s2) ∧
      (Conserved s → Conserved s2) := by
  match rtt with
  | none => exact ⟨s, rfl, id⟩
  | some .nan => exact ⟨s, rfl, id⟩
  | some (.fin x) =>
    exact ⟨recordSample s x colo country, rfl, conserved_recordSample s x colo country⟩

theorem runSeq_conserved (calls : List RecCall) (s : Stored) (h : Conserved s) :
    ∃ s2, runSeq (.valid s) calls = .ok (.valid s2) ∧ Conserved s2 := by
  induction calls generalizing s with
  | nil => exact ⟨s, rfl, h⟩
  | cons c cs ih =>
    obtain ⟨s1, hr, hc⟩ := recordRun_valid_step s c.colo c.country c.rtt
    obtain ⟨s2, hrs, hc2⟩ := ih s1 (hc h)
    refine ⟨s2, ?_, hc2⟩
    simp only [runSeq, hr]
    exact hrs

theorem countLeAux_gt (idx : ℕ) (bs : List ℕ) (i : ℕ) (h : idx < i) : countLeAux idx bs i = 0 := by
  induction bs generalizing i with
  | nil => rfl
  | cons b bs ih =>
    have h1 : ¬ i < idx := by omega
    have h2 : ¬ i = idx := by omega
    simp only [countLeAux, if_neg h1, if_neg h2]
    rw [ih (i + 1) (by omega)]

theorem countLeAux_eq_take (idx : ℕ) (bs : List ℕ) (i : ℕ) (h : i ≤ idx) :
    countLeAux idx bs i = (bs.take (idx + 1 - i)).sum := by
  induction bs generalizing i with
  | nil => simp [countLeAux]
  | cons b bs ih =>
    by_cases hlt : i < idx
    · have harith : idx + 1 - i = (idx + 1 - (i + 1)) + 1 := by omega
      rw [harith, List.take_succ_cons, List.sum_cons]
      simp only [countLeAux, if_pos hlt]
      rw [ih (i + 1) (by omega)]
    · have hi : i = idx := Nat.le_antisymm h (Nat.not_lt.mp hlt)
      subst hi
      have harith : i + 1 - i = 1 := by omega
      rw [harith]
      simp only [countLeAux, Nat.lt_irrefl, if_neg (Nat.lt_irrefl i), if_pos rfl]
      rw [countLeAux_gt i bs (i + 1) (by omega)]
      simp

/- Claim theorems. -/

/-- C2: `bucketIndex rtt edges` is the smallest index `i` with
`rtt <= edges[i]`, and is `edges.length` (the overflow index) when no edge
qualifies; consequently on an ascending edge list each edge value maps to its
own bucket (inclusive upper bound), and one past the last edge maps to the
overflow index. -/
theorem bucketIndex_spec :
    (∀ (rtt : ℤ) (edges : List ℤ) (i : ℕ), i < edges.length →
        rtt ≤ edges.getD i 0 → (∀ j, j < i → ¬ rtt ≤ edges.getD j 0) →
        bucketIndex rtt edges = i) ∧
    (∀ (rtt : ℤ) (edges : List ℤ), (∀ e ∈ edges, ¬ rtt ≤ e) →
        bucketIndex rtt edges = edges.length) ∧
    (∀ (edges : List ℤ), List.Pairwise (fun a b : ℤ => a < b) edges →
        ∀ i, i < edges.length → bucketIndex (edges.getD i 0) edges = i) ∧
    (∀ (edges : List ℤ), edges ≠ [] → List.Pairwise (fun a b : ℤ => a < b) edges →
        bucketIndex (edges.getD (edges.length - 1) 0 + 1) edges = edges.length) := by
  refine ⟨?_, ?_, ?_, ?_⟩
  · exact fun rtt edges i hi hle hlt => bucketIndex_first rtt edges i hi hle hlt
  · exact fun rtt edges h => bucketIndex_of_no_edge rtt edges h
  · intro edges hs i hi
    exact bucketIndex_first _ edges i hi (le_refl _)
      (fun j hj => not_le.mpr (sorted_getD_lt edges hs j i hj hi))
  · intro edges hne hs
    apply bucketIndex_of_no_edge
    intro e he
    have hpos : 0 < edges.length := List.length_pos.mpr hne
    obtain ⟨⟨k, hk⟩, hek⟩ := List.mem_iff_get.mp he
    have h2 : edges.get ⟨k, hk⟩ = edges.getD k 0 := by
      rw [List.getD_eq_getElem edges 0 hk, List.get_eq_getElem]
    have h1 : e ≤ edges.getD (edges.length - 1) 0 := by
      rw [← hek, h2]
      exact sorted_getD_le edges hs k (edges.length - 1) (by omega) (by omega)
    omega

/-- C2 witness: the characterizations at concrete inputs over the default
edge set (`7` falls in bucket 1, `5000` overflows, edge value `20` maps to
its own index, `1001` maps to the overflow index). -/
theorem bucketIndex_spec_witness :
    bucketIndex 7 DEFAULT_EDGES = 1 ∧
    bucketIndex 5000 DEFAULT_EDGES = DEFAULT_EDGES.length ∧
    bucketIndex (DEFAULT_EDGES.getD 3 0) DEFAULT_EDGES = 3 ∧
    bucketIndex (DEFAULT_EDGES.getD (DEFAULT_EDGES.length - 1) 0 + 1) DEFAULT_EDGES =
      DEFAULT_EDGES.length := by
  refine ⟨?_, ?_, ?_, ?_⟩
  · exact bucketIndex_spec.1 7 DEFAULT_EDGES 1 (by decide) (by decide) (by decide)
  · exact bucketIndex_spec.2.1 5000 DEFAULT_EDGES (by decide)
  · exact bucketIndex_spec.2.2.1 DEFAULT_EDGES (by decide) 3 (by decide)
  · exact bucketIndex_spec.2.2.2 DEFAULT_EDGES (by decide) (by decide)

/-- C8: `bucketIndex` is monotone in the RTT argument, for every edge list. -/
theorem bucketIndex_mono :
    ∀ (edges : List ℤ) (rtt1 rtt2 : ℤ), rtt1 ≤ rtt2 →
      bucketIndex rtt1 edges ≤ bucketIndex rtt2 edges :=
  fun edges r1 r2 h => bucketIndex_mono_aux edges r1 r2 h

/-- C8 witness: monotonicity instantiated at `12 <= 450` over the default
edges. -/
theorem bucketIndex_mono_witness :
    bucketIndex 12 DEFAULT_EDGES ≤ bucketIndex 450 DEFAULT_EDGES :=
  bucketIndex_mono DEFAULT_EDGES 12 450 (by decide)

/-- C1: `percentileFromHist` returns `null` for `samples <= 0`; for
`samples > 0` and target rank `ceil(targetPct / 100 * samples)` it returns
`edges[k]` where `k` is the first index whose cumulative bucket count reaches
the target rank, or `edges[last] + 1` when that index is past the edge list
(the overflow bucket); in particular
`percentileFromHist 10 [2,3,5] [10,20] 50 = 20`. -/
theorem percentileFromHist_spec :
    (∀ (samples : ℤ) (buckets : List ℕ) (edges : List ℤ) (targetPct : ℚ),
        samples ≤ 0 → percentileFromHist samples buckets edges targetPct = none) ∧
    (∀ (samples : ℤ) (buckets : List ℕ) (edges : List ℤ) (targetPct : ℚ) (k : ℕ),
        0 < samples → List.Pairwise (fun a b : ℤ => a < b) edges →
        0 ≤ targetPct → targetPct ≤ 100 →
        k < buckets.length →
        Int.ceil (targetPct / 100 * (samples : ℚ)) ≤ ((buckets.take (k + 1)).sum : ℤ) →
        (∀ j, j < k →
          ((buckets.take (j + 1)).sum : ℤ) < Int.ceil (targetPct / 100 * (samples : ℚ))) →
        percentileFromHist samples buckets edges targetPct =
          some (if k < edges.length then edges.getD k 0
                else edges.getD (edges.length - 1) 0 + 1)) ∧
    percentileFromHist 10 [2, 3, 5] [10, 20] 50 = some 20 := by
  refine ⟨?_, ?_, ?_⟩
  · intro samples buckets edges p h
    simp [percentileFromHist, h]
  · intro samples buckets edges p k hs hsort h0 h100 hk hreach hbefore
    rw [percentileFromHist, if_neg (not_le.mpr hs)]
    have hw := histWalk_first edges (Int.ceil (p / 100 * (samples : ℚ))) buckets k 0 0 hk
      (by omega) (fun j hj => by have := hbefore j hj; omega)
    simpa using hw
  · rw [percentileFromHist, if_neg (by norm_num)]
    have hceil : Int.ceil ((50 : ℚ) / 100 * ((10 : ℤ) : ℚ)) = 5 := by norm_num
    rw [hceil]
    decide

/-- C1 witness: the null branch applied at `samples = -3`, and the
first-reaching-index characterization applied at the concrete scenario
(buckets `[2,3,5]`, edges `[10,20]`, target 50%, first index 1). -/
theorem percentileFromHist_spec_witness :
    percentileFromHist (-3) [1, 1] [10, 20] 50 = none ∧
    percentileFromHist 10 [2, 3, 5] [10, 20] 50 =
      some (if 1 < ([10, 20] : List ℤ).length then ([10, 20] : List ℤ).getD 1 0
            else ([10, 20] : List ℤ).getD (([10, 20] : List ℤ).length - 1) 0 + 1) := by
  constructor
  · exact percentileFromHist_spec.1 (-3) [1, 1] [10, 20] 50 (by norm_num)
  · refine percentileFromHist_spec.2.1 10 [2, 3, 5] [10, 20] 50 1 (by norm_num) (by decide)
      (by norm_num) (by norm_num) (by decide) ?_ ?_
    · have hceil : Int.ceil ((50 : ℚ) / 100 * ((10 : ℤ) : ℚ)) = 5 := by norm_num
      rw [hceil]
      decide
    · intro j hj
      have hj0 : j = 0 := by omega
      subst hj0
      have hceil : Int.ceil ((50 : ℚ) / 100 * ((10 : ℤ) : ℚ)) = 5 := by norm_num
      rw [hceil]
      decide

/-- C9: with positive `samples` and an ascending edge list, whenever
`percentileFromHist` returns non-null for both of two percentages
`p1 <= p2` in `[0,100]`, the value at `p1` is at most the value at `p2`. -/
theorem percentileFromHist_mono :
    ∀ (samples : ℤ) (buckets : List ℕ) (edges : List ℤ) (p1 p2 : ℚ) (v1 v2 : ℤ),
      0 < samples → 0 ≤ p1 → p1 ≤ p2 → p2 ≤ 100 →
      List.Pairwise (fun a b : ℤ => a < b) edges →
      percentileFromHist samples buckets edges p1 = some v1 →
      percentileFromHist samples buckets edges p2 = some v2 →
      v1 ≤ v2 := by
  intro samples buckets edges p1 p2 v1 v2 hs h0 h12 h100 hsort h1 h2
  rw [percentileFromHist, if_neg (not_le.mpr hs)] at h1 h2
  have hsq : (0 : ℚ) ≤ (samples : ℚ) := by exact_mod_cast le_of_lt hs
  have hmul : p1 / 100 * (samples : ℚ) ≤ p2 / 100 * (samples : ℚ) := by
    apply mul_le_mul_of_nonneg_right _ hsq
    exact (div_le_div_iff_of_pos_right (by norm_num : (0 : ℚ) < 100)).mpr h12
  exact histWalk_mono_t edges hsort _ _ (Int.ceil_le_ceil hmul) buckets 0 0 v1 v2 h1 h2

/-- C9 witness: at the concrete scenario histogram, the 50th percentile is
`20` and the 90th percentile is the overflow sentinel `21`, and monotonicity
applies. -/
theorem percentileFromHist_mono_witness :
    percentileFromHist 10 [2, 3, 5] [10, 20] 50 = some 20 ∧
    percentileFromHist 10 [2, 3, 5] [10, 20] 90 = some 21 ∧
    (20 : ℤ) ≤ 21 := by
  have h1 : percentileFromHist 10 [2, 3, 5] [10, 20] 50 = some 20 := by
    rw [percentileFromHist, if_neg (by norm_num)]
    have hceil : Int.ceil ((50 : ℚ) / 100 * ((10 : ℤ) : ℚ)) = 5 := by norm_num
    rw [hceil]
    decide
  have h2 : percentileFromHist 10 [2, 3, 5] [10, 20] 90 = some 21 := by
    rw [percentileFromHist, if_neg (by norm_num)]
    have hceil : Int.ceil ((90 : ℚ) / 100 * ((10 : ℤ) : ℚ)) = 9 := by norm_num
    rw [hceil]
    decide
  exact ⟨h1, h2, percentileFromHist_mono 10 [2, 3, 5] [10, 20] 50 90 20 21 (by norm_num)
    (by norm_num) (by norm_num) (by norm_num) (by decide) h1 h2⟩

/-- C10: for positive `samples`, `targetPct` in `[0,100]`, and a histogram
whose total count covers `samples`, `percentileFromHist` never takes the
trailing null branch. -/
theorem percentileFromHist_total :
    ∀ (samples : ℤ) (buckets : List ℕ) (edges : List ℤ) (targetPct : ℚ),
      0 < samples → 0 ≤ targetPct → targetPct ≤ 100 →
      samples ≤ (buckets.sum : ℤ) →
      percentileFromHist samples buckets edges targetPct ≠ none := by
  intro samples buckets edges p hs h0 h100 hsum
  rw [percentileFromHist, if_neg (not_le.mpr hs)]
  have hne : buckets ≠ [] := by
    intro hb
    subst hb
    simp at hsum
    omega
  apply histWalk_total edges _ buckets 0 0 hne
  have hsq : (0 : ℚ) ≤ (samples : ℚ) := by exact_mod_cast le_of_lt hs
  have hle1 : p / 100 ≤ 1 := (div_le_one (by norm_num)).mpr h100
  have hceil : Int.ceil (p / 100 * (samples : ℚ)) ≤ samples := by
    rw [Int.ceil_le]
    calc p / 100 * (samples : ℚ) ≤ 1 * (samples : ℚ) := mul_le_mul_of_nonneg_right hle1 hsq
    _ = (samples : ℚ) := one_mul _
  omega

/-- C10 witness: non-nullness applied at the concrete scenario histogram with
the 99th percentile. -/
theorem percentileFromHist_total_witness :
    percentileFromHist 10 [2, 3, 5] [10, 20] 99 ≠ none :=
  percentileFromHist_total 10 [2, 3, 5] [10, 20] 99 (by norm_num) (by norm_num) (by norm_num)
    (by decide)

/-- C3: one `recordRun` call on a stored aggregate persists an aggregate with
`samples` one greater, the bucket at `bucketIndex (round rtt) bucketEdges` one
greater, and the location entry's count bumped, `sumRtt` increased by
`round rtt`, and country overwritten; and from an empty aggregate with edges
`[5,10,15]`, recording RTTs 3, 7, 12, 999 yields buckets `[1,1,1,1]` and
`samples = 4`. -/
theorem recordRun_single_sample :
    (∀ (s : Stored) (x : ℚ) (colo country : Option String), 0 ≤ x →
      ∃ s2, recordRun (.valid s) colo country (some (.fin x)) = .ok (.valid s2) ∧
        s2.samples = s.samples + 1 ∧
        s2.bucketEdges = s.bucketEdges ∧
        s2.buckets.getD (bucketIndex (roundJs x) s.bucketEdges) 0 =
          s.buckets.getD (bucketIndex (roundJs x) s.bucketEdges) 0 + 1 ∧
        lookupColo s2.colo (colo.getD ("—")) =
          some { count := ((lookupColo s.colo (colo.getD ("—"))).getD
                    { count := 0, sumRtt := 0, country := country }).count + 1,
                 sumRtt := ((lookupColo s.colo (colo.getD ("—"))).getD
                    { count := 0, sumRtt := 0, country := country }).sumRtt + roundJs x,
                 country := country }) ∧
    (∃ s4, runSeq
        (.valid { samples := 0, buckets := [0, 0, 0, 0], bucketEdges := [5, 10, 15], colo := [] })
        [ { colo := none, country := none, rtt := some (.fin 3) },
          { colo := none, country := none, rtt := some (.fin 7) },
          { colo := none, country := none, rtt := some (.fin 12) },
          { colo := none, country := none, rtt := some (.fin 999) } ] = .ok (.valid s4) ∧
      s4.buckets = [1, 1, 1, 1] ∧ s4.samples = 4) := by
  constructor
  · intro s x colo country hx
    refine ⟨recordSample s x colo country, rfl, rfl, rfl, ?_, ?_⟩
    · show (incAt s.buckets (bucketIndex (roundJs x) s.bucketEdges)).getD
        (bucketIndex (roundJs x) s.bucketEdges) 0 =
        s.buckets.getD (bucketIndex (roundJs x) s.bucketEdges) 0 + 1
      exact incAt_getD s.buckets _
    · exact lookupColo_setColo_self s.colo (colo.getD ("—")) _
  · have r3 : roundJs 3 = 3 := by norm_num [roundJs]
    have r7 : roundJs 7 = 7 := by norm_num [roundJs]
    have r12 : roundJs 12 = 12 := by norm_num [roundJs]
    have r999 : roundJs 999 = 999 := by norm_num [roundJs]
    refine ⟨{ samples := 4, buckets := [1, 1, 1, 1], bucketEdges := [5, 10, 15],
              colo := [("—", { count := 4, sumRtt := 1021, country := none })] }, ?_, rfl, rfl⟩
    simp only [runSeq, recordRun, loadStored, recordSample, r3, r7, r12, r999]
    decide

/-- C3 witness: the single-step description applied at a concrete aggregate
and sample. -/
theorem recordRun_single_sample_witness :
    ∃ s2, recordRun (.valid defaultStored) (some ("AMS")) (some ("NL")) (some (.fin 7)) =
        .ok (.valid s2) ∧
      s2.samples = defaultStored.samples + 1 ∧
      s2.bucketEdges = defaultStored.bucketEdges ∧
      s2.buckets.getD (bucketIndex (roundJs 7) defaultStored.bucketEdges) 0 =
        defaultStored.buckets.getD (bucketIndex (roundJs 7) defaultStored.bucketEdges) 0 + 1 ∧
      lookupColo s2.colo ("AMS") =
        some { count := ((lookupColo defaultStored.colo ("AMS")).getD
                  { count := 0, sumRtt := 0, country := some ("NL") }).count + 1,
               sumRtt := ((lookupColo defaultStored.colo ("AMS")).getD
                  { count := 0, sumRtt := 0, country := some ("NL") }).sumRtt + roundJs 7,
               country := some ("NL") } :=
  recordRun_single_sample.1 defaultStored 7 (some ("AMS")) (some ("NL")) (by norm_num)

/-- C4: the conservation invariant `sum(buckets) = samples =
sum(colo[*].count)` holds of the empty aggregate and is preserved by every
finite single-threaded sequence of `recordRun` calls. -/
theorem recordRun_conservation :
    Conserved defaultStored ∧
    ∀ (calls : List RecCall) (s : Stored), Conserved s →
      ∃ s2, runSeq (.valid s) calls = .ok (.valid s2) ∧
        s2.buckets.sum = s2.samples ∧ (s2.colo.map (fun p => p.2.count)).sum = s2.samples := by
  constructor
  · exact ⟨by decide, by decide⟩
  · intro calls s h
    obtain ⟨s2, hr, hc⟩ := runSeq_conserved calls s h
    exact ⟨s2, hr, hc.1, hc.2⟩

/-- C4 witness: the invariant after a concrete two-call sequence (one real
sample, one no-op with a missing RTT) from the empty aggregate. -/
theorem recordRun_conservation_witness :
    ∃ s2, runSeq (.valid defaultStored)
        [ { colo := some ("LHR"), country := some ("GB"), rtt := some (.fin 21) },
          { colo := none, country := none, rtt := none } ] = .ok (.valid s2) ∧
      s2.buckets.sum = s2.samples ∧ (s2.colo.map (fun p => p.2.count)).sum = s2.samples :=
  recordRun_conservation.2
    [ { colo := some ("LHR"), country := some ("GB"), rtt := some (.fin 21) },
      { colo := none, country := none, rtt := none } ]
    defaultStored recordRun_conservation.1

/-- C5 counterexample: a negative finite RTT (`-5`) passes the source guard
`edgeRtt == null || Number.isNaN(edgeRtt)`, so `recordRun` records it (the
persisted state changes) and `getPercentile` returns a non-null result —
contradicting the claim that a negative RTT is treated as a no-op / null. -/
theorem invalid_rtt_negative_cex :
    recordRun (.valid defaultStored) none none (some (.fin (-5))) ≠
      .ok (.valid defaultStored) ∧
    getPercentile ("2026-10-11") (.valid defaultStored) (some (.fin (-5))) ≠ .ok none := by
  constructor
  · simp only [recordRun, loadStored, recordSample]
    decide
  · simp only [getPercentile, loadStored]
    decide

/-- C5 (amended): the source rejects exactly a missing (`null`/`undefined`)
or NaN RTT: `recordRun` is then a no-op on the stored state and completes
without error, and `getPercentile` returns null regardless of the stored
state (including a corrupt one — the guard runs before any store access);
negative finite RTTs are not rejected. -/
theorem invalid_rtt_noop :
    ∀ (kv : KVVal) (colo country : Option String) (day : String) (rtt : Option JsNum),
      rtt = none ∨ rtt = some .nan →
      recordRun kv colo country rtt = .ok kv ∧ getPercentile day kv rtt = .ok none := by
  intro kv colo country day rtt h
  rcases h with h | h
  · subst h
    exact ⟨rfl, rfl⟩
  · subst h
    exact ⟨rfl, rfl⟩

/-- C5 witness: the no-op behavior applied at `rtt = null` over a corrupt
stored state. -/
theorem invalid_rtt_noop_witness :
    recordRun .corrupt none none none = .ok .corrupt ∧
    getPercentile ("2026-10-11") .corrupt none = .ok none :=
  invalid_rtt_noop .corrupt none none ("2026-10-11") none (Or.inl rfl)

/-- C6 counterexample: on a stored value that fails to deserialize, both
operations propagate the `JSON.parse` exception (modelled `Except.error`)
instead of falling back to a fresh empty aggregate and completing
normally. -/
theorem corrupt_store_cex :
    recordRun .corrupt none none (some (.fin 5)) = .error () ∧
    getPercentile ("2026-10-11") .corrupt (some (.fin 5)) = .error () :=
  ⟨rfl, rfl⟩

/-- C6 (amended): only absence of the stored value falls back to the fresh
empty aggregate (both operations then complete normally); a present value
that fails to deserialize makes `JSON.parse` throw, and the error propagates
out of both `recordRun` and `getPercentile`. -/
theorem corrupt_vs_absent :
    (∀ (colo country : Option String) (x : ℚ),
        recordRun .absent colo country (some (.fin x)) =
          .ok (.valid (recordSample defaultStored x colo country))) ∧
    (∀ (day : String) (x : ℚ),
        getPercentile day .absent (some (.fin x)) =
          .ok (some { fasterThanPct := 0, samples := 0, day := day })) ∧
    (∀ (colo country : Option String) (x : ℚ),
        recordRun .corrupt colo country (some (.fin x)) = .error ()) ∧
    (∀ (day : String) (x : ℚ), getPercentile day .corrupt (some (.fin x)) = .error ()) := by
  refine ⟨fun colo country x => rfl, ?_, fun colo country x => rfl, fun day x => rfl⟩
  intro day x
  simp [getPercentile, loadStored, defaultStored]

/-- C7: for a stored aggregate and a finite RTT, `getPercentile` returns
`{fasterThanPct, samples, day}` where `fasterThanPct` is the prefix sum of
the buckets up to and including `bucketIndex (round rtt) bucketEdges`,
divided by `samples`, times 100, rounded, clamped to `[0,100]` — and `0`
when `samples = 0`; an unseen day loads as the empty aggregate (zero
samples, all-zero buckets, empty location map), on which every finite RTT
ranks `fasterThanPct = 0`. -/
theorem getPercentile_rank :
    (∀ (day : String) (s : Stored) (x : ℚ),
        getPercentile day (.valid s) (some (.fin x)) =
          .ok (some
            { fasterThanPct :=
                if 0 < s.samples then
                  max 0 (min 100 (roundJs
                    ((((s.buckets.take (bucketIndex (roundJs x) s.bucketEdges + 1)).sum : ℕ) : ℚ) /
                      (s.samples : ℚ) * 100)))
                else 0,
              samples := s.samples, day := day })) ∧
    (∀ (day : String) (s : Stored) (x : ℚ), s.samples = 0 →
        getPercentile day (.valid s) (some (.fin x)) =
          .ok (some { fasterThanPct := 0, samples := 0, day := day })) ∧
    loadStored .absent = .ok defaultStored ∧
    defaultStored.samples = 0 ∧
    defaultStored.buckets = List.replicate (DEFAULT_EDGES.length + 1) 0 ∧
    defaultStored.colo = [] ∧
    (∀ (day : String) (x : ℚ),
        getPercentile day .absent (some (.fin x)) =
          .ok (some { fasterThanPct := 0, samples := 0, day := day })) := by
  refine ⟨?_, ?_, rfl, rfl, rfl, rfl, ?_⟩
  · intro day s x
    have hcl : countLeAux (bucketIndex (roundJs x) s.bucketEdges) s.buckets 0 =
        (s.buckets.take (bucketIndex (roundJs x) s.bucketEdges + 1)).sum := by
      rw [countLeAux_eq_take _ _ 0 (Nat.zero_le _), Nat.sub_zero]
    simp only [getPercentile, loadStored, hcl]
  · intro day s x h
    simp only [getPercentile, loadStored, h]
    simp
  · intro day x
    simp [getPercentile, loadStored, defaultStored]

/-- C7 witness: the `samples = 0` clause applied at the empty aggregate and
RTT 7. -/
theorem getPercentile_rank_witness :
    getPercentile ("2026-01-01") (.valid defaultStored) (some (.fin 7)) =
      .ok (some { fasterThanPct := 0, samples := 0, day := "2026-01-01" }) :=
  getPercentile_rank.2.1 ("2026-01-01") defaultStored 7 rfl

end EdgeCheck
